import Mathlib

/-!
Shallow embedding of the GRQ-validation performance engine (Rust sources
`src/main.rs`, `src/models.rs`, `src/utils.rs`, `src/processor.rs`).

Modelling conventions used throughout:
* `f64` values are idealized as rationals `ℚ`; the single transcendental
  operation (`powf` in the annualization) is modelled over `ℝ` with `rpow`.
  Rust float literals such as `0.3` stand for the exact rational `3/10`.
* `chrono::NaiveDate` values are day numbers `ℤ` (chrono dates are totally
  ordered and `Duration::days`/`num_days` act as integer addition and
  subtraction on day numbers).  Engine functions that parse date strings
  receive the dates already parsed; `chrono` string parsing is abstracted.
* `HashMap` values are association lists with `alookup`/`ainsert`
  (first-match lookup, overwrite on insert); iteration over a map is a
  left fold over the list.  The min/max scans the source performs during
  iteration are order-independent on distinct keys.
* File reading is abstracted: functions that read files take the parsed
  content (or a path-indexed association list of contents) as an argument.
* `str::parse::<f64>` is modelled on the grammar of plain decimal literals
  (optional sign, digits, optional fractional part); exponent forms and the
  `inf`/`nan` spellings accepted by Rust are outside the modelled grammar,
  and a parsed literal stands for its exact rational value.
-/

namespace GRQ

/-- Association list lookup, first match wins; models `HashMap::get`. -/
def alookup {α β : Type} [DecidableEq α] : List (α × β) → α → Option β
  | [], _ => none
  | (k, v) :: rest, k₀ => if k₀ = k then some v else alookup rest k₀

/-- Association list insert with overwrite; models `HashMap::insert`. -/
def ainsert {α β : Type} [DecidableEq α] : List (α × β) → α → β → List (α × β)
  | [], k, v => [(k, v)]
  | (k₁, v₁) :: rest, k, v =>
      if k = k₁ then (k, v) :: rest else (k₁, v₁) :: ainsert rest k v

/-- Numeric value of an ASCII digit character. -/
def digitVal (c : Char) : Option ℕ :=
  if c = '0' then some 0 else if c = '1' then some 1 else if c = '2' then some 2
  else if c = '3' then some 3 else if c = '4' then some 4 else if c = '5' then some 5
  else if c = '6' then some 6 else if c = '7' then some 7 else if c = '8' then some 8
  else if c = '9' then some 9 else none

/-- Value of a run of decimal digit characters; `none` if any char is not a digit. -/
def digitsVal : List Char → Option ℕ
  | [] => some 0
  | c :: rest =>
      match digitVal c with
      | none => none
      | some d => (digitsVal rest).map (fun n => d * 10 ^ rest.length + n)

/-- Split a literal at its (at most one) decimal dot: `some (ip, fp)` with the
digits before and after the dot, `none` if more than one dot occurs. -/
def splitDot : List Char → Option (List Char × List Char)
  | [] => some ([], [])
  | c :: rest =>
      if c = '.' then
        if rest.all (fun x => x ≠ '.') then some ([], rest) else none
      else
        (splitDot rest).map (fun p => (c :: p.1, p.2))

/-- Unsigned decimal literal (digits, optional single dot, at least one digit
overall) as an exact rational. -/
def parseUnsignedQ (cs : List Char) : Option ℚ :=
  match splitDot cs with
  | none => none
  | some (ip, fp) =>
      if ip = [] ∧ fp = [] then none
      else
        match digitsVal ip, digitsVal fp with
        | some n, some f => some ((n : ℚ) + (f : ℚ) / 10 ^ fp.length)
        | _, _ => none

/-- Model of Rust `str::parse::<f64>` on plain decimal literals (see the
header: exponent forms and `inf`/`nan` are outside the modelled grammar). -/
def parseF64Q (s : String) : Option ℚ :=
  match s.toList with
  | [] => none
  | c :: rest =>
      if c = '-' then (parseUnsignedQ rest).map Neg.neg
      else if c = '+' then parseUnsignedQ rest
      else parseUnsignedQ (c :: rest)

/-- Translation of `models.rs::deserialize_currency` (lines 14-30): strip every
`$` and `,`, then parse as a float; a failed parse is a deserialization error. -/
def deserializeCurrency (s : String) : Except String ℚ :=
  let cleaned := String.mk (s.toList.filter (fun c => c ≠ '$' ∧ c ≠ ','))
  match parseF64Q cleaned with
  | some q => Except.ok q
  | none => Except.error ("Failed to parse currency value " ++ s ++ " as float")

/-- Model of Rust `str::trim`: drop leading and trailing whitespace. -/
def trimString (s : String) : String :=
  String.mk
    (((s.toList.dropWhile (fun c => c.isWhitespace)).reverse.dropWhile
        (fun c => c.isWhitespace)).reverse)

/-- Translation of `models.rs::deserialize_optional_currency` (lines 48-76):
a missing or (after trimming) empty cell is `none`; otherwise strip `$`/`,`
and parse, failing on a malformed literal. -/
def deserializeOptionalCurrency (s : Option String) : Except String (Option ℚ) :=
  match s with
  | none => Except.ok none
  | some s =>
      let trimmed := trimString s
      if trimmed = "" then Except.ok none
      else
        let cleaned := String.mk (trimmed.toList.filter (fun c => c ≠ '$' ∧ c ≠ ','))
        match parseF64Q cleaned with
        | some q => Except.ok (some q)
        | none =>
            Except.error ("Failed to parse currency value " ++ trimmed ++ " as float")

example : parseF64Q "22.63" = some (2263 / 100) := by
  norm_num +decide [parseF64Q, parseUnsignedQ, splitDot, digitsVal, digitVal]
example : deserializeCurrency "-$45,749.70" = Except.ok (-(4574970 / 100)) := by
  norm_num +decide [deserializeCurrency, parseF64Q, parseUnsignedQ, splitDot,
    digitsVal, digitVal]

/-- Row of a score file, translation of `models.rs::StockRecord` with numeric
cells already deserialized. -/
structure StockRecord where
  stock : String
  score : ℚ
  target : ℚ
  exDividendDate : Option String
  dividendPerShare : Option ℚ
  notes : Option String
  intrinsicValuePerShareBasic : Option ℚ
  intrinsicValuePerShareAdjusted : Option ℚ
deriving Repr, DecidableEq

/-- Translation of `models.rs::StockPerformance`. -/
structure StockPerformance where
  ticker : String
  buyPrice : ℚ
  targetPrice : ℚ
  currentPrice : ℚ
  gainLossPercent : ℚ
  dividendsTotal : ℚ
  totalReturnPercent : ℚ
deriving Repr, DecidableEq

/-- Translation of `models.rs::PortfolioPerformance`, except that the stored
`performance_annualized` float is exposed as the separate function
`PortfolioCore.performanceAnnualized` (it is the one transcendental value),
and the intermediate `actual_days_elapsed` used to compute it is kept. -/
structure PortfolioCore where
  scoreDate : ℤ
  totalStocks : ℕ
  performance90Day : ℚ
  actualDaysElapsed : ℤ
  individualPerformances : List StockPerformance
deriving Repr, DecidableEq

/-- Translation of `utils.rs` lines 614-618 / 768-772: the value stored in
`PortfolioPerformance.performance_annualized`. -/
noncomputable def PortfolioCore.performanceAnnualized (c : PortfolioCore) : ℝ :=
  if c.performance90Day ≠ 0 ∧ 0 < c.actualDaysElapsed then
    ((1 + (c.performance90Day : ℝ) / 100) ^
        ((365.25 : ℝ) / (c.actualDaysElapsed : ℝ)) - 1) * 100
  else 0

/-- Record of the dividend corpus (`models.rs::DividendRecord`), with the
ex-dividend date and the amount string already parsed (the source skips
records whose date or amount fail to parse; such records are not modelled). -/
structure DividendRecord where
  exDividendDate : ℤ
  amount : ℚ
deriving Repr, DecidableEq

/-- Translation of `models.rs::DividendData`. -/
structure DividendData where
  symbol : String
  data : List DividendRecord
deriving Repr, DecidableEq

/-- Constant `utils.rs::DIVIDEND_DATA_BASE_PATH`. -/
def DIVIDEND_DATA_BASE_PATH : String := "../GRQ-dividends"

/-- The shelf letter: `ticker.chars().next().unwrap_or('X').to_uppercase()`. -/
def firstLetterShelf (ticker : String) : String :=
  String.singleton (Char.toUpper (ticker.toList.headD 'X'))

/-- Translation of `utils.rs::get_dividend_data_path` (lines 360-363). -/
def getDividendDataPath (ticker : String) : String :=
  DIVIDEND_DATA_BASE_PATH ++ "/data/" ++ firstLetterShelf ticker ++ "/" ++ ticker ++ ".json"

/-- The dividend corpus on disk: parsed `DividendData` per file path.  A path
absent from the list is a missing (or unparseable) file. -/
abbrev DivFs := List (String × DividendData)

/-- Translation of `utils.rs::read_dividend_data` (lines 366-374): open the
file at `get_dividend_data_path` and deserialize; any failure is an error. -/
def readDividendData (fs : DivFs) (ticker : String) : Except String DividendData :=
  match alookup fs (getDividendDataPath ticker) with
  | some d => Except.ok d
  | none => Except.error ("No such file: " ++ getDividendDataPath ticker)

/-- Translation of `utils.rs::filter_dividend_data_by_date_range`
(lines 377-403): keep records with ex-dividend date in `[start, endD]`
(the source then sorts ascending by date; the sort is omitted here, and the
sole in-crate consumer, a sum, is order-independent). -/
def filterDividendDataByDateRange (d : DividendData) (start endD : ℤ) :
    List (ℤ × ℚ) :=
  (d.data.filter (fun r => start ≤ r.exDividendDate ∧ r.exDividendDate ≤ endD)).map
    (fun r => (r.exDividendDate, r.amount))

/-- Translation of `utils.rs::calculate_dividends_for_period` (lines 784-796).
Note the source passes the caller's FULL ticker (e.g. `NYSE:SEM`) straight to
`read_dividend_data` without the symbol-from-ticker transform. -/
def calculateDividendsForPeriod (fs : DivFs) (symbol : String) (start endD : ℤ) :
    Except String ℚ :=
  match readDividendData fs symbol with
  | Except.ok d => Except.ok (((filterDividendDataByDateRange d start endD).map Prod.snd).sum)
  | Except.error _ => Except.ok 0

/-- Rust `Result::unwrap_or`. -/
def exceptGetD {ε α : Type} (x : Except ε α) (dflt : α) : α :=
  match x with
  | Except.ok v => v
  | Except.error _ => dflt

/-- Split a character list on a separator; models `str::split`. -/
def splitOnChar (sep : Char) : List Char → List (List Char)
  | [] => [[]]
  | c :: rest =>
      let r := splitOnChar sep rest
      if c = sep then [] :: r
      else
        match r with
        | [] => [[c]]
        | g :: gs => (c :: g) :: gs

/-- Translation of `utils.rs::extract_symbol_from_ticker` (lines 93-101):
the part after the last colon (the whole string when there is no colon,
per `rsplit_once`), with every dot replaced by a hyphen. -/
def extractSymbolFromTicker (ticker : String) : String :=
  let parts := splitOnChar ':' ticker.toList
  let symbol := if parts.length ≤ 1 then ticker.toList else parts.getLastD []
  String.mk (symbol.map (fun c => if c = '.' then '-' else c))

example : extractSymbolFromTicker "NYSE:SEM" = "SEM" := by decide
example : extractSymbolFromTicker "NYSE:HEI.A" = "HEI-A" := by decide
example : getDividendDataPath "NYSE:SEM" = "../GRQ-dividends/data/N/NYSE:SEM.json" := by decide
example : getDividendDataPath "SEM" = "../GRQ-dividends/data/S/SEM.json" := by decide

/-- The per-score price map read back from the snapshot CSV:
full ticker to (date to close price), dates as day numbers. -/
abbrev MarketMap := List (String × List (ℤ × ℚ))

/-- The `find the next available trading day` scan (`utils.rs` lines 516-528
and 682-695): earliest map date on or after the score date, first-iterated
entry winning ties, exactly as the source loop with its running best. -/
def nextStep (scoreDate : ℤ) (best : Option (ℤ × ℚ)) (dq : ℤ × ℚ) : Option (ℤ × ℚ) :=
  match best with
  | none => if scoreDate ≤ dq.1 then some dq else none
  | some b => if scoreDate ≤ dq.1 ∧ dq.1 < b.1 then some dq else some b

def nextTradingScan (inner : List (ℤ × ℚ)) (scoreDate : ℤ) : Option (ℤ × ℚ) :=
  inner.foldl (nextStep scoreDate) none

/-- The `find the latest available price` scan (`utils.rs` lines 551-561 and
657-668): latest map date in `[scoreDate, endDate]`, starting from
`(scoreDate, 0.0)`, later-iterated entry winning ties, as the source loop. -/
def latestStep (scoreDate endDate : ℤ) (acc dq : ℤ × ℚ) : ℤ × ℚ :=
  if scoreDate ≤ dq.1 ∧ dq.1 ≤ endDate ∧ acc.1 ≤ dq.1 then (dq.1, dq.2) else acc

def latestScan (inner : List (ℤ × ℚ)) (scoreDate endDate : ℤ) : ℤ × ℚ :=
  inner.foldl (latestStep scoreDate endDate) (scoreDate, 0)

/-- The buy-price block of `calculate_portfolio_performance` (`utils.rs`
lines 510-538): close at the score date if present, else close of the next
available trading day when positive, else no buy price (skip). -/
def measuredBuyPrice (inner : List (ℤ × ℚ)) (scoreDate : ℤ) : Option ℚ :=
  match alookup inner scoreDate with
  | some p => some p
  | none =>
      match nextTradingScan inner scoreDate with
      | some dq => if 0 < dq.2 then some dq.2 else none
      | none => none

/-- The current-price block of `calculate_portfolio_performance` (`utils.rs`
lines 541-573): close at the 90-day end date if present, else the latest
in-window close (0 when none); paired with the date folded into
`latest_market_date`. -/
def measuredCurrent (inner : List (ℤ × ℚ)) (scoreDate : ℤ) : ℚ × ℤ :=
  match alookup inner (scoreDate + 90) with
  | some p => (p, scoreDate + 90)
  | none =>
      let lr := latestScan inner scoreDate (scoreDate + 90)
      (lr.2, lr.1)

/-- Loop body of `utils.rs::calculate_portfolio_performance` (lines 505-597)
for one stock record: the optional `StockPerformance` pushed for it, paired
with the date folded into `latest_market_date` (the score date when the
stock leaves `latest_market_date` untouched). -/
def measuredStep (market : MarketMap) (divFs : DivFs) (scoreDate : ℤ)
    (r : StockRecord) : Option StockPerformance × ℤ :=
  match alookup market r.stock with
  | none => (none, scoreDate)
  | some inner =>
      match measuredBuyPrice inner scoreDate with
      | none => (none, scoreDate)
      | some buyPrice =>
          let endDate := scoreDate + 90
          let cp := measuredCurrent inner scoreDate
          let currentPrice := cp.1
          let latestUpd := cp.2
          if 0 < buyPrice ∧ 0 < currentPrice then
            let gainLossPercent := (currentPrice - buyPrice) / buyPrice * 100
            let dividendsTotal :=
              exceptGetD (calculateDividendsForPeriod divFs r.stock scoreDate endDate) 0
            (some
              { ticker := r.stock
                buyPrice := buyPrice
                targetPrice := r.target
                currentPrice := currentPrice
                gainLossPercent := gainLossPercent
                dividendsTotal := dividendsTotal
                totalReturnPercent := gainLossPercent + dividendsTotal / buyPrice * 100 },
              latestUpd)
          else (none, latestUpd)

/-- Translation of `utils.rs::calculate_portfolio_performance` (lines 485-629),
with the score file and the snapshot CSV already read into `records` and
`market` and the score date already parsed. -/
def calculatePortfolioPerformance (records : List StockRecord) (scoreDate : ℤ)
    (market : MarketMap) (divFs : DivFs) : PortfolioCore :=
  let st := records.foldl
    (fun acc r =>
      let s := measuredStep market divFs scoreDate r
      (acc.1 ++ s.1.toList, max acc.2 s.2))
    (([] : List StockPerformance), scoreDate)
  let perfs := st.1
  let performance90Day : ℚ :=
    if perfs ≠ [] then ((perfs.map StockPerformance.totalReturnPercent).sum) / perfs.length
    else 0
  { scoreDate := scoreDate
    totalStocks := records.length
    performance90Day := performance90Day
    actualDaysElapsed := min (st.2 - scoreDate) 90
    individualPerformances := perfs }

/-- Rust `f64::clamp`. -/
def clampQ (x lo hi : ℚ) : ℚ := if x < lo then lo else if hi < x then hi else x

/-- The buy-price block of `calculate_hybrid_projection` (`utils.rs`
lines 677-700): close at the score date if present, else close of the next
available trading day (0.0 when none; the positivity check happens at the
use site in this mode). -/
def hybridBuyPrice (inner : List (ℤ × ℚ)) (scoreDate : ℤ) : ℚ :=
  match alookup inner scoreDate with
  | some p => p
  | none =>
      match nextTradingScan inner scoreDate with
      | some dq => dq.2
      | none => 0

/-- Loop body of `utils.rs::calculate_hybrid_projection` (lines 652-755) for
one stock record, analogous to `measuredStep`.  Note the latest-market-date
update happens before the positivity checks in this mode. -/
def hybridStep (market : MarketMap) (divFs : DivFs) (scoreDate currentDate : ℤ)
    (r : StockRecord) : Option StockPerformance × ℤ :=
  match alookup market r.stock with
  | none => (none, scoreDate)
  | some inner =>
      let lr := latestScan inner scoreDate currentDate
      let latestDate := lr.1
      let latestPrice := lr.2
      if 0 < latestPrice then
        let buyPrice := hybridBuyPrice inner scoreDate
        if 0 < buyPrice then
          let gainLossPercent := (latestPrice - buyPrice) / buyPrice * 100
          let marketDaysElapsed := latestDate - scoreDate
          let currentRate : ℚ :=
            if 0 < marketDaysElapsed then gainLossPercent / marketDaysElapsed else 0
          let dampeningFactor : ℚ :=
            if marketDaysElapsed < 30 then 3 / 10
            else if marketDaysElapsed < 60 then 1 / 2
            else 7 / 10
          let projected90Day := clampQ (currentRate * 90 * dampeningFactor) (-100) 200
          let endDate := scoreDate + 90
          let dividendsTotal :=
            exceptGetD (calculateDividendsForPeriod divFs r.stock scoreDate endDate) 0
          (some
            { ticker := r.stock
              buyPrice := buyPrice
              targetPrice := r.target
              currentPrice := latestPrice
              gainLossPercent := projected90Day
              dividendsTotal := dividendsTotal
              totalReturnPercent := projected90Day + dividendsTotal / buyPrice * 100 },
            latestDate)
        else (none, latestDate)
      else (none, latestDate)

/-- Translation of `utils.rs::calculate_hybrid_projection` (lines 632-781),
with inputs already read/parsed and `chrono::Utc::now()` passed as
`currentDate`. -/
def calculateHybridProjection (records : List StockRecord)
    (scoreDate currentDate : ℤ) (market : MarketMap) (divFs : DivFs) :
    Except String PortfolioCore :=
  if 90 ≤ currentDate - scoreDate then
    Except.error "Score is already 90 days old, use regular performance calculation"
  else
    let st := records.foldl
      (fun acc r =>
        let s := hybridStep market divFs scoreDate currentDate r
        (acc.1 ++ s.1.toList, max acc.2 s.2))
      (([] : List StockPerformance), scoreDate)
    let perfs := st.1
    let performance90Day : ℚ :=
      if perfs ≠ [] then ((perfs.map StockPerformance.totalReturnPercent).sum) / perfs.length
      else 0
    Except.ok
      { scoreDate := scoreDate
        totalStocks := records.length
        performance90Day := performance90Day
        actualDaysElapsed := min (st.2 - scoreDate) 90
        individualPerformances := perfs }

/-- A record of the snapshot CSV (`csv::StringRecord`): a list of cell strings. -/
abbrev CsvRow := List String

/-- The map built by `read_market_data_from_csv`, still keyed by the raw date
strings of column 0 (no date parsing happens in that function). -/
abbrev MarketMapS := List (String × List (String × ℚ))

/-- One `entry(..).or_default().insert(..)` on the nested map. -/
def insertClose (m : MarketMapS) (ticker date : String) (q : ℚ) : MarketMapS :=
  match alookup m ticker with
  | none => ainsert m ticker [(date, q)]
  | some inner => ainsert m ticker (ainsert inner date q)

/-- Loop body of `read_market_data_from_csv` for one CSV row. -/
def csvRowStep (m : MarketMapS) (r : CsvRow) : MarketMapS :=
  if 6 ≤ r.length then
    let date := r.getD 0 ""
    let fullTicker := r.getD 1 ""
    let closePrice := (parseF64Q (r.getD 5 "")).getD 0
    if 0 < closePrice then insertClose m fullTicker date closePrice else m
  else m

/-- Translation of `utils.rs::read_market_data_from_csv` (lines 115-144):
for each row with at least 6 cells, parse cell 5 as the close
(`unwrap_or(0.0)`) and store it under (cell 1, cell 0) when positive. -/
def readMarketDataFromCsv (rows : List CsvRow) : MarketMapS :=
  rows.foldl csvRowStep []

/-- Nested lookup in the CSV-derived map. -/
def lookupClose (m : MarketMapS) (ticker date : String) : Option ℚ :=
  (alookup m ticker).bind (fun inner => alookup inner date)

/-- Month-number string to English month name, translation of the match in
`main.rs` lines 70-84. -/
def monthNameOfNumStr (month : String) : Option String :=
  if month = "01" then some "January" else if month = "02" then some "February"
  else if month = "03" then some "March" else if month = "04" then some "April"
  else if month = "05" then some "May" else if month = "06" then some "June"
  else if month = "07" then some "July" else if month = "08" then some "August"
  else if month = "09" then some "September" else if month = "10" then some "October"
  else if month = "11" then some "November" else if month = "12" then some "December"
  else none

/-- Translation of the single-date score path derivation in `main.rs`
lines 56-89: split the `--date` argument on `-`, map the month component to
a month name, and splice year/month-name/day into the path.  The day
component is used verbatim. -/
def deriveScoreFilePath (docsPath date : String) : Except String String :=
  let dateParts := (splitOnChar '-' date.toList).map String.mk
  if dateParts.length ≠ 3 then Except.error "Invalid date format. Use YYYY-MM-DD"
  else
    let year := dateParts.getD 0 ""
    let month := dateParts.getD 1 ""
    let day := dateParts.getD 2 ""
    match monthNameOfNumStr month with
    | none => Except.error ("Invalid month: " ++ month)
    | some monthName =>
        Except.ok (docsPath ++ "/scores/" ++ year ++ "/" ++ monthName ++ "/" ++ day ++ ".tsv")

/-- Month number to English month name, translation of the match in
`processor.rs` lines 160-174 (numbers outside 1-12 are `unreachable` in the
source; the empty string stands in for that case). -/
def monthNameOfMonthNumber (m : ℕ) : String :=
  if m = 1 then "January" else if m = 2 then "February" else if m = 3 then "March"
  else if m = 4 then "April" else if m = 5 then "May" else if m = 6 then "June"
  else if m = 7 then "July" else if m = 8 then "August" else if m = 9 then "September"
  else if m = 10 then "October" else if m = 11 then "November"
  else if m = 12 then "December" else ""

/-- Translation of `processor.rs::find_tsv_file_for_date` (lines 159-183):
the score path the processor derives for a calendar date; `date.day()`
formats with no leading zero. -/
def findTsvFileForDate (docsPath : String) (year month day : ℕ) : String :=
  docsPath ++ "/scores/" ++ toString year ++ "/" ++ monthNameOfMonthNumber month ++
    "/" ++ toString day ++ ".tsv"

/-- Join character-list fragments with a separator character. -/
def joinWithChar (sep : Char) : List (List Char) → List Char
  | [] => []
  | [g] => g
  | g :: gs => g ++ sep :: joinWithChar sep gs

/-- Rust `Path::file_stem` on a file name: drop the part after the last dot
(a name without a dot is its own stem). -/
def fileStem (name : String) : String :=
  let parts := splitOnChar '.' name.toList
  if parts.length ≤ 1 then name else String.mk (joinWithChar '.' parts.dropLast)

/-- Translation of `utils.rs::derive_csv_output_path` (lines 175-187): the
sibling of the score file with extension replaced by `.csv`. -/
def deriveCsvOutputPath (scoreFilePath : String) : String :=
  let comps := splitOnChar '/' scoreFilePath.toList
  let stemmed := comps.dropLast ++ [(fileStem (String.mk (comps.getLastD []))).toList ++ ".csv".toList]
  String.mk (joinWithChar '/' stemmed)

example : deriveCsvOutputPath "docs/scores/2025/June/20.tsv" = "docs/scores/2025/June/20.csv" := by
  decide
example : deriveCsvOutputPath "20.tsv" = "20.csv" := by decide

/-- Translation of `models.rs::ScoreEntry`; the three optional metric fields
are the only ones this system writes. -/
structure ScoreEntry where
  year : String
  month : String
  day : String
  file : String
  date : String
  performance90Day : Option ℚ
  performanceAnnualized : Option ℝ
  totalStocks : Option ℕ

/-- Environment of `update_index_with_performance`: file reading and the
clock, abstracted per the header conventions.  `parseDate` stands for
`NaiveDate::parse_from_str(_, "%Y-%m-%d")` on the entry's date string. -/
structure UpdateEnv where
  scoreFile : String → Except String (List StockRecord)
  marketCsv : String → Except String MarketMap
  divFs : DivFs
  today : ℤ
  parseDate : String → Option ℤ

/-- The three-field patch applied to a matched score entry
(`utils.rs` lines 813-815 and 836-840). -/
def patchEntry (e : ScoreEntry) (p90 : ℚ) (pann : ℝ) (ts : ℕ) : ScoreEntry :=
  { e with performance90Day := some p90
           performanceAnnualized := some pann
           totalStocks := some ts }

/-- `calculate_portfolio_performance` including its two file reads
(score TSV and derived snapshot CSV), as called by the index updater. -/
def calculatePortfolioPerformanceFromFiles (env : UpdateEnv) (path : String)
    (scoreDate : ℤ) : Except String PortfolioCore :=
  match env.scoreFile path with
  | Except.error e => Except.error e
  | Except.ok records =>
      match env.marketCsv (deriveCsvOutputPath path) with
      | Except.error e => Except.error e
      | Except.ok market =>
          Except.ok (calculatePortfolioPerformance records scoreDate market env.divFs)

/-- Body of the per-entry loop of `utils.rs::update_index_with_performance`
(lines 802-866): parse the entry date (a failure aborts the whole update, as
the source propagates it with the question-mark operator), pick measured or
projected mode by age, patch the three metric fields on success and leave
the entry untouched on any per-entry failure. -/
noncomputable def updateScoreEntry (env : UpdateEnv) (docsPath : String)
    (e : ScoreEntry) : Except String ScoreEntry :=
  match env.parseDate e.date with
  | none => Except.error ("invalid date: " ++ e.date)
  | some scoreDate =>
      let path := docsPath ++ "/scores/" ++ e.file
      if 90 ≤ env.today - scoreDate then
        match calculatePortfolioPerformanceFromFiles env path scoreDate with
        | Except.ok p =>
            Except.ok (patchEntry e p.performance90Day p.performanceAnnualized p.totalStocks)
        | Except.error _ => Except.ok e
      else
        match env.scoreFile path with
        | Except.error _ => Except.ok e
        | Except.ok records =>
            match env.marketCsv (deriveCsvOutputPath path) with
            | Except.error _ => Except.ok e
            | Except.ok market =>
                match calculateHybridProjection records scoreDate env.today market env.divFs with
                | Except.ok p =>
                    Except.ok
                      (patchEntry e p.performance90Day p.performanceAnnualized p.totalStocks)
                | Except.error _ => Except.ok e

/-- Translation of `utils.rs::update_index_with_performance` (lines 799-874)
on the list of index entries (the final whole-file JSON write is outside the
embedding; the returned list is what gets serialized). -/
noncomputable def updateIndexWithPerformance (env : UpdateEnv) (docsPath : String) :
    List ScoreEntry → Except String (List ScoreEntry)
  | [] => Except.ok []
  | e :: rest =>
      match updateScoreEntry env docsPath e with
      | Except.error msg => Except.error msg
      | Except.ok e₁ =>
          match updateIndexWithPerformance env docsPath rest with
          | Except.error msg => Except.error msg
          | Except.ok rest₁ => Except.ok (e₁ :: rest₁)

/-- Fold body taking the entry with the smallest date, first entry winning ties. -/
def specEarliestStep (best : Option (ℤ × ℚ)) (dq : ℤ × ℚ) : Option (ℤ × ℚ) :=
  match best with
  | none => some dq
  | some b => if dq.1 < b.1 then some dq else some b

/-- Modelled from the spec (buy-price rule, spec section 4.3): the close at
the score date if present, else the close on the earliest available date
strictly after it. -/
def specBuyPrice (inner : List (ℤ × ℚ)) (scoreDate : ℤ) : Option ℚ :=
  match alookup inner scoreDate with
  | some p => some p
  | none =>
      ((inner.filter (fun dq => scoreDate < dq.1)).foldl specEarliestStep none).map Prod.snd

/-- Modelled from the spec (portfolio aggregation, spec section 4.3): the
chosen current-price date of a stock, i.e. the latest map date in the
analysis window, clipped never to be below the score date. -/
def specChosenDate (inner : List (ℤ × ℚ)) (scoreDate endDate : ℤ) : ℤ :=
  ((inner.map Prod.fst).filter (fun d => scoreDate ≤ d ∧ d ≤ endDate)).foldl max scoreDate

/-- Modelled from the spec (portfolio aggregation, spec section 4.3):
`latest_included_date`, the maximum of the chosen current-price dates across
the stocks, never below the score date.  Stocks without any date in the
window are exactly the skipped (non-kept) ones and contribute the score
date, i.e. nothing, to this maximum. -/
def specLatestIncludedDate (records : List StockRecord) (market : MarketMap)
    (scoreDate endDate : ℤ) : ℤ :=
  records.foldl
    (fun acc r =>
      match alookup market r.stock with
      | none => acc
      | some inner => max acc (specChosenDate inner scoreDate endDate))
    scoreDate

/-- Modelled from the spec (spec section 4.3): the annualization formula
`((1 + p/100) ^ (365.25/effective_days) - 1) × 100`, or 0 when `p = 0` or
`effective_days ≤ 0`. -/
noncomputable def specAnnualize (p : ℚ) (effectiveDays : ℤ) : ℝ :=
  if p = 0 ∨ effectiveDays ≤ 0 then 0
  else ((1 + (p : ℝ) / 100) ^ ((365.25 : ℝ) / (effectiveDays : ℝ)) - 1) * 100

/-- Modelled from the spec (per-stock return, spec section 4.3):
`dividends_total` looked up through the symbol-from-ticker transform of the
full ticker, summing the corpus amounts in the window, 0 when the corpus
entry is absent. -/
def specDividendsForPeriod (fs : DivFs) (fullTicker : String) (start endD : ℤ) : ℚ :=
  match readDividendData fs (extractSymbolFromTicker fullTicker) with
  | Except.ok d => ((filterDividendDataByDateRange d start endD).map Prod.snd).sum
  | Except.error _ => 0

section Lemmas

variable {α β : Type} [DecidableEq α]

theorem alookup_mem {l : List (α × β)} {k : α} {v : β} (h : alookup l k = some v) :
    (k, v) ∈ l := by
  induction l with
  | nil => simp [alookup] at h
  | cons x rest ih =>
      rcases x with ⟨a, b⟩
      rw [alookup] at h
      by_cases hk : k = a
      · rw [if_pos hk] at h
        injection h with hv
        subst hk
        subst hv
        exact List.mem_cons_self _ _
      · rw [if_neg hk] at h
        exact List.mem_cons_of_mem _ (ih h)

theorem alookup_eq_none_iff {l : List (α × β)} {k : α} :
    alookup l k = none ↔ ∀ x ∈ l, x.1 ≠ k := by
  induction l with
  | nil => simp [alookup]
  | cons x rest ih =>
      rcases x with ⟨a, b⟩
      rw [alookup]
      by_cases hk : k = a
      · simp [hk]
      · simp only [if_neg hk, ih]
        constructor
        · intro h y hy
          rcases List.mem_cons.mp hy with hy1 | hy1
          · subst hy1
            simp only [ne_eq]
            exact fun e => hk e.symm
          · exact h y hy1
        · intro h y hy
          exact h y (List.mem_cons_of_mem _ hy)

theorem alookup_ainsert (l : List (α × β)) (k : α) (v : β) (k₀ : α) :
    alookup (ainsert l k v) k₀ = if k₀ = k then some v else alookup l k₀ := by
  induction l with
  | nil => by_cases h : k₀ = k <;> simp [ainsert, alookup, h]
  | cons x rest ih =>
      rcases x with ⟨a, b⟩
      rw [ainsert]
      by_cases hk : k = a
      · subst hk
        by_cases h0 : k₀ = k <;> simp [alookup, h0]
      · rw [if_neg hk, alookup, alookup]
        by_cases h0 : k₀ = a
        · have hne : ¬k₀ = k := fun e => hk (e.symm.trans h0)
          have hak : ¬a = k := fun e => hk e.symm
          simp [h0, hne, hak]
        · simp only [if_neg h0, ih]

/-- Decomposing the paired fold used by both portfolio calculations: the first
component collects the per-record optional performances in order. -/
theorem foldl_pair_fst {γ δ : Type} (step : γ → Option δ × ℤ) :
    ∀ (records : List γ) (l₀ : List δ) (d₀ : ℤ),
      (records.foldl
        (fun acc r => (acc.1 ++ (step r).1.toList, max acc.2 (step r).2)) (l₀, d₀)).1 =
        l₀ ++ records.filterMap (fun r => (step r).1) := by
  intro records
  induction records with
  | nil => intro l₀ d₀; simp
  | cons r rest ih =>
      intro l₀ d₀
      rw [List.foldl_cons, ih, List.filterMap_cons]
      cases h : (step r).1 <;> simp [h]

/-- Decomposing the paired fold: the second component is the running maximum
of the per-record dates. -/
theorem foldl_pair_snd {γ δ : Type} (step : γ → Option δ × ℤ) :
    ∀ (records : List γ) (l₀ : List δ) (d₀ : ℤ),
      (records.foldl
        (fun acc r => (acc.1 ++ (step r).1.toList, max acc.2 (step r).2)) (l₀, d₀)).2 =
        records.foldl (fun acc r => max acc (step r).2) d₀ := by
  intro records
  induction records with
  | nil => intro l₀ d₀; simp
  | cons r rest ih => intro l₀ d₀; rw [List.foldl_cons, ih, List.foldl_cons]

theorem foldl_max_le {l : List ℤ} {c : ℤ} (hall : ∀ x ∈ l, x ≤ c) {a : ℤ} (ha : a ≤ c) :
    l.foldl max a ≤ c := by
  induction l generalizing a with
  | nil => simpa using ha
  | cons x rest ih =>
      rw [List.foldl_cons]
      exact ih (fun y hy => hall y (List.mem_cons_of_mem _ hy))
        (max_le ha (hall x (List.mem_cons_self _ _)))

theorem foldl_max_mono {l : List ℤ} {a b : ℤ} (h : a ≤ b) :
    l.foldl max a ≤ l.foldl max b := by
  induction l generalizing a b with
  | nil => simpa using h
  | cons x rest ih =>
      rw [List.foldl_cons, List.foldl_cons]
      exact ih (max_le_max h le_rfl)

theorem le_foldl_max (l : List ℤ) (a : ℤ) : a ≤ l.foldl max a := by
  induction l generalizing a with
  | nil => simp
  | cons x rest ih =>
      rw [List.foldl_cons]
      exact le_trans (le_max_left a x) (ih _)

theorem mem_le_foldl_max {l : List ℤ} {d : ℤ} (hd : d ∈ l) (a : ℤ) :
    d ≤ l.foldl max a := by
  induction l generalizing a with
  | nil => simp at hd
  | cons x rest ih =>
      rw [List.foldl_cons]
      rcases List.mem_cons.mp hd with hd1 | hd1
      · subst hd1
        exact le_trans (le_max_right a d) (le_foldl_max _ _)
      · exact ih hd1 _

theorem foldl_max_eq {l : List ℤ} {d : ℤ} (hd : d ∈ l) (hall : ∀ x ∈ l, x ≤ d)
    {a : ℤ} (ha : a ≤ d) : l.foldl max a = d :=
  le_antisymm (foldl_max_le hall ha) (mem_le_foldl_max hd a)

theorem nextScan_fold_none {D : ℤ} :
    ∀ (l : List (ℤ × ℚ)) (best : Option (ℤ × ℚ)),
      l.foldl (nextStep D) best = none ↔ best = none ∧ ∀ dq ∈ l, dq.1 < D := by
  intro l
  induction l with
  | nil => intro best; simp
  | cons x rest ih =>
      intro best
      rw [List.foldl_cons, ih]
      constructor
      · rintro ⟨h1, h2⟩
        cases best with
        | none =>
            rw [nextStep] at h1
            by_cases hx : D ≤ x.1
            · rw [if_pos hx] at h1; exact absurd h1 (by simp)
            · refine ⟨rfl, ?_⟩
              intro dq hdq
              rcases List.mem_cons.mp hdq with h | h
              · subst h; exact lt_of_not_le hx
              · exact h2 dq h
        | some b =>
            rw [nextStep] at h1
            by_cases hx : D ≤ x.1 ∧ x.1 < b.1
            · rw [if_pos hx] at h1; exact absurd h1 (by simp)
            · rw [if_neg hx] at h1; exact absurd h1 (by simp)
      · rintro ⟨hb, hall⟩
        subst hb
        have hx : ¬D ≤ x.1 := not_le_of_lt (hall x (List.mem_cons_self _ _))
        rw [nextStep, if_neg hx]
        exact ⟨rfl, fun dq hdq => hall dq (List.mem_cons_of_mem _ hdq)⟩

theorem nextTradingScan_eq_none_iff {inner : List (ℤ × ℚ)} {D : ℤ} :
    nextTradingScan inner D = none ↔ ∀ dq ∈ inner, dq.1 < D := by
  rw [nextTradingScan, nextScan_fold_none]
  simp

theorem nextScan_fold_some {D : ℤ} :
    ∀ (l : List (ℤ × ℚ)) (best : Option (ℤ × ℚ)) (dq : ℤ × ℚ),
      l.foldl (nextStep D) best = some dq →
        best = some dq ∨ (dq ∈ l ∧ D ≤ dq.1) := by
  intro l
  induction l with
  | nil => intro best dq h; simp at h; left; simp [h]
  | cons x rest ih =>
      intro best dq h
      rw [List.foldl_cons] at h
      rcases ih _ _ h with h1 | h1
      · cases best with
        | none =>
            rw [nextStep] at h1
            by_cases hx : D ≤ x.1
            · rw [if_pos hx] at h1
              injection h1 with h2
              right
              exact ⟨h2 ▸ List.mem_cons_self _ _, h2 ▸ hx⟩
            · rw [if_neg hx] at h1; exact absurd h1 (by simp)
        | some b =>
            rw [nextStep] at h1
            by_cases hx : D ≤ x.1 ∧ x.1 < b.1
            · rw [if_pos hx] at h1
              injection h1 with h2
              right
              exact ⟨h2 ▸ List.mem_cons_self _ _, h2 ▸ hx.1⟩
            · rw [if_neg hx] at h1
              injection h1 with h2
              left
              rw [h2]
      · right
        exact ⟨List.mem_cons_of_mem _ h1.1, h1.2⟩

theorem nextTradingScan_some_mem {inner : List (ℤ × ℚ)} {D : ℤ} {dq : ℤ × ℚ}
    (h : nextTradingScan inner D = some dq) : dq ∈ inner ∧ D ≤ dq.1 := by
  rcases nextScan_fold_some inner none dq h with h1 | h1
  · exact absurd h1 (by simp)
  · exact h1

/-- On a list without an entry at the score date, the source's
next-trading-day scan coincides with the spec's earliest-date-strictly-after
fold over the filtered list. -/
theorem nextScan_eq_specEarliest {D : ℤ} :
    ∀ (l : List (ℤ × ℚ)), (∀ dq ∈ l, dq.1 ≠ D) →
      ∀ best, l.foldl (nextStep D) best =
        (l.filter (fun dq => D < dq.1)).foldl specEarliestStep best := by
  intro l
  induction l with
  | nil => intro _ best; simp
  | cons x rest ih =>
      intro hne best
      have hxne : x.1 ≠ D := hne x (List.mem_cons_self _ _)
      have hrest : ∀ dq ∈ rest, dq.1 ≠ D := fun dq hdq => hne dq (List.mem_cons_of_mem _ hdq)
      rw [List.foldl_cons]
      by_cases hx : D ≤ x.1
      · have hlt : D < x.1 := lt_of_le_of_ne hx (Ne.symm hxne)
        have hfil : (x :: rest).filter (fun dq => decide (D < dq.1)) =
            x :: rest.filter (fun dq => decide (D < dq.1)) := by
          simp [List.filter_cons, hlt]
        rw [hfil, List.foldl_cons, ih hrest]
        congr 1
        cases best with
        | none => simp [nextStep, specEarliestStep, hx]
        | some b =>
            rw [nextStep, specEarliestStep]
            by_cases hb : x.1 < b.1
            · rw [if_pos ⟨hx, hb⟩, if_pos hb]
            · rw [if_neg (fun hc => hb hc.2), if_neg hb]
      · have hnlt : ¬D < x.1 := fun hc => hx (le_of_lt hc)
        have hfil : (x :: rest).filter (fun dq => decide (D < dq.1)) =
            rest.filter (fun dq => decide (D < dq.1)) := by
          simp [List.filter_cons, hnlt]
        rw [hfil, ih hrest]
        congr 1
        cases best with
        | none => simp [nextStep, hx]
        | some b => rw [nextStep, if_neg (fun hc : D ≤ x.1 ∧ x.1 < b.1 => hx hc.1)]

theorem latestScan_fold_fst {D e : ℤ} :
    ∀ (l : List (ℤ × ℚ)) (acc : ℤ × ℚ), D ≤ acc.1 →
      (l.foldl (latestStep D e) acc).1 =
        ((l.map Prod.fst).filter (fun d => D ≤ d ∧ d ≤ e)).foldl max acc.1 := by
  intro l
  induction l with
  | nil => intro acc _; simp
  | cons x rest ih =>
      intro acc hacc
      rw [List.foldl_cons, List.map_cons]
      by_cases hx : D ≤ x.1 ∧ x.1 ≤ e
      · have hfil : (x.1 :: rest.map Prod.fst).filter (fun d => decide (D ≤ d ∧ d ≤ e)) =
            x.1 :: (rest.map Prod.fst).filter (fun d => decide (D ≤ d ∧ d ≤ e)) := by
          simp [List.filter_cons, hx.1, hx.2]
        rw [hfil, List.foldl_cons]
        by_cases hle : acc.1 ≤ x.1
        · rw [latestStep, if_pos ⟨hx.1, hx.2, hle⟩, ih _ hx.1]
          congr 1
          exact (max_eq_right hle).symm
        · rw [latestStep, if_neg (fun hc => hle hc.2.2), ih _ hacc]
          congr 1
          exact (max_eq_left (le_of_not_le hle)).symm
      · have hfil : (x.1 :: rest.map Prod.fst).filter (fun d => decide (D ≤ d ∧ d ≤ e)) =
            (rest.map Prod.fst).filter (fun d => decide (D ≤ d ∧ d ≤ e)) := by
          simp only [List.filter_cons]
          rw [if_neg (by simpa using hx)]
        rw [hfil, latestStep, if_neg (fun hc => hx ⟨hc.1, hc.2.1⟩), ih _ hacc]

theorem latestScan_fst (inner : List (ℤ × ℚ)) (D e : ℤ) :
    (latestScan inner D e).1 = specChosenDate inner D e :=
  latestScan_fold_fst inner (D, 0) le_rfl

theorem latestScan_fold_mem {D e : ℤ} :
    ∀ (l : List (ℤ × ℚ)) (acc : ℤ × ℚ),
      l.foldl (latestStep D e) acc = acc ∨
        (l.foldl (latestStep D e) acc ∈ l ∧
          D ≤ (l.foldl (latestStep D e) acc).1 ∧ (l.foldl (latestStep D e) acc).1 ≤ e) := by
  intro l
  induction l with
  | nil => intro acc; left; simp
  | cons x rest ih =>
      intro acc
      rw [List.foldl_cons]
      rw [latestStep]
      by_cases hx : D ≤ x.1 ∧ x.1 ≤ e ∧ acc.1 ≤ x.1
      · rw [if_pos hx]
        rcases ih (x.1, x.2) with h1 | h1
        · right
          rw [h1]
          exact ⟨List.mem_cons_self _ _, hx.1, hx.2.1⟩
        · right
          exact ⟨List.mem_cons_of_mem _ h1.1, h1.2⟩
      · rw [if_neg hx]
        rcases ih acc with h1 | h1
        · left; exact h1
        · right
          exact ⟨List.mem_cons_of_mem _ h1.1, h1.2⟩

theorem latestScan_mem_or (inner : List (ℤ × ℚ)) (D e : ℤ) :
    latestScan inner D e = (D, 0) ∨
      (latestScan inner D e ∈ inner ∧
        D ≤ (latestScan inner D e).1 ∧ (latestScan inner D e).1 ≤ e) :=
  latestScan_fold_mem inner (D, 0)

theorem latestScan_fold_only_scoreDate {D e : ℤ} {p : ℚ} :
    ∀ (l : List (ℤ × ℚ)) (acc : ℤ × ℚ),
      (∀ dq ∈ l, D ≤ dq.1 → dq.1 ≤ e → dq = (D, p)) →
      (acc = (D, 0) ∨ acc = (D, p)) →
      (l.foldl (latestStep D e) acc = acc ∨ l.foldl (latestStep D e) acc = (D, p)) ∧
        ((D, p) ∈ l → D ≤ e → l.foldl (latestStep D e) acc = (D, p)) := by
  intro l
  induction l with
  | nil =>
      intro acc _ _
      refine ⟨Or.inl (by simp), ?_⟩
      intro h
      simp at h
  | cons x rest ih =>
      intro acc hall hacc
      have hrest : ∀ dq ∈ rest, D ≤ dq.1 → dq.1 ≤ e → dq = (D, p) :=
        fun dq hdq => hall dq (List.mem_cons_of_mem _ hdq)
      have haccfst : acc.1 = D := by rcases hacc with h | h <;> simp [h]
      rw [List.foldl_cons, latestStep]
      by_cases hx : D ≤ x.1 ∧ x.1 ≤ e ∧ acc.1 ≤ x.1
      · have hxp : x = (D, p) := hall x (List.mem_cons_self _ _) hx.1 hx.2.1
        have hnew : ((x.1, x.2) : ℤ × ℚ) = (D, p) := by rw [hxp]
        rw [if_pos hx]
        rcases ih (x.1, x.2) hrest (Or.inr hnew) with ⟨h1, _⟩
        have hres : rest.foldl (latestStep D e) (x.1, x.2) = (D, p) := by
          rcases h1 with h | h
          · rw [h, hnew]
          · exact h
        exact ⟨Or.inr hres, fun _ _ => hres⟩
      · rw [if_neg hx]
        rcases ih acc hrest hacc with ⟨h1, h2⟩
        refine ⟨h1, ?_⟩
        intro hmem hDe
        rcases List.mem_cons.mp hmem with hm | hm
        · exfalso
          apply hx
          have hx1 : x.1 = D := by rw [← hm]
          exact ⟨by rw [hx1], by rw [hx1]; exact hDe, by rw [hx1, haccfst]⟩
        · exact h2 hm hDe

theorem latestScan_only_scoreDate {inner : List (ℤ × ℚ)} {D e : ℤ} {p : ℚ}
    (hmem : (D, p) ∈ inner)
    (hall : ∀ dq ∈ inner, D ≤ dq.1 → dq.1 ≤ e → dq = (D, p)) (hDe : D ≤ e) :
    latestScan inner D e = (D, p) :=
  (latestScan_fold_only_scoreDate inner (D, 0) hall (Or.inl rfl)).2 hmem hDe

theorem le_specChosenDate (inner : List (ℤ × ℚ)) (D e : ℤ) :
    D ≤ specChosenDate inner D e :=
  le_foldl_max _ _

theorem specChosenDate_eq_of_empty {inner : List (ℤ × ℚ)} {D e : ℤ}
    (h : ∀ dq ∈ inner, dq.1 < D) : specChosenDate inner D e = D := by
  rw [specChosenDate]
  have hfil : (inner.map Prod.fst).filter (fun d => decide (D ≤ d ∧ d ≤ e)) = [] := by
    rw [List.filter_eq_nil_iff]
    intro d hd
    rcases List.mem_map.mp hd with ⟨dq, hdq, hdd⟩
    subst hdd
    simp [not_le_of_lt (h dq hdq)]
  rw [hfil]
  simp

theorem specChosenDate_eq_end {inner : List (ℤ × ℚ)} {D e : ℤ} {q : ℚ}
    (hmem : (e, q) ∈ inner) (hDe : D ≤ e) : specChosenDate inner D e = e := by
  rw [specChosenDate]
  apply foldl_max_eq (d := e)
  · apply List.mem_filter.mpr
    refine ⟨List.mem_map.mpr ⟨(e, q), hmem, rfl⟩, by simp [hDe]⟩
  · intro x hx
    have := (List.mem_filter.mp hx).2
    simp at this
    exact this.2
  · exact hDe

theorem measuredCurrent_snd (inner : List (ℤ × ℚ)) (D : ℤ) :
    (measuredCurrent inner D).2 = specChosenDate inner D (D + 90) := by
  rw [measuredCurrent]
  cases h : alookup inner (D + 90) with
  | some p =>
      exact (specChosenDate_eq_end (alookup_mem h) (by omega)).symm
  | none =>
      exact latestScan_fst inner D (D + 90)

theorem measuredStep_snd {market : MarketMap} {divFs : DivFs} {D : ℤ} {r : StockRecord}
    (hpos : ∀ x ∈ market, ∀ dq ∈ x.2, 0 < dq.2) :
    (measuredStep market divFs D r).2 =
      (match alookup market r.stock with
       | none => D
       | some inner => specChosenDate inner D (D + 90)) := by
  cases hm : alookup market r.stock with
  | none => simp [measuredStep, hm]
  | some inner =>
      have hinner : ∀ dq ∈ inner, 0 < dq.2 := hpos _ (alookup_mem hm)
      simp only [measuredStep, hm]
      cases hb : measuredBuyPrice inner D with
      | none =>
          have hempty : ∀ dq ∈ inner, dq.1 < D := by
            cases hD : alookup inner D with
            | some p => simp [measuredBuyPrice, hD] at hb
            | none =>
                cases hscan : nextTradingScan inner D with
                | none => exact nextTradingScan_eq_none_iff.mp hscan
                | some dq =>
                    have hqpos := hinner dq (nextTradingScan_some_mem hscan).1
                    simp [measuredBuyPrice, hD, hscan, hqpos] at hb
          simp [specChosenDate_eq_of_empty hempty]
      | some buyPrice =>
          rw [← measuredCurrent_snd inner D]
          by_cases hkeep : 0 < buyPrice ∧ 0 < (measuredCurrent inner D).1 <;>
            simp [hkeep]

theorem hybridStep_snd {market : MarketMap} {divFs : DivFs} {D today : ℤ}
    {r : StockRecord} :
    (hybridStep market divFs D today r).2 =
      (match alookup market r.stock with
       | none => D
       | some inner => specChosenDate inner D today) := by
  cases hm : alookup market r.stock with
  | none => simp [hybridStep, hm]
  | some inner =>
      simp only [hybridStep, hm]
      rw [← latestScan_fst inner D today]
      by_cases h1 : 0 < (latestScan inner D today).2
      · by_cases h2 : 0 < hybridBuyPrice inner D <;> simp [h1, h2]
      · simp [h1]

/-- The `latest_market_date` fold of either mode equals the spec-side
`latest_included_date`, given the per-record characterization of the folded
dates. -/
theorem foldl_latest_eq_specLatest {market : MarketMap} {D e : ℤ}
    (stepSnd : StockRecord → ℤ)
    (hstep : ∀ r, stepSnd r =
      (match alookup market r.stock with
       | none => D
       | some inner => specChosenDate inner D e)) :
    ∀ (records : List StockRecord) (acc : ℤ), D ≤ acc →
      records.foldl (fun a r => max a (stepSnd r)) acc =
        records.foldl
          (fun a r =>
            match alookup market r.stock with
            | none => a
            | some inner => max a (specChosenDate inner D e))
          acc := by
  intro records
  induction records with
  | nil => intro acc _; simp
  | cons r rest ih =>
      intro acc hacc
      rw [List.foldl_cons, List.foldl_cons, hstep r]
      cases hm : alookup market r.stock with
      | none =>
          rw [max_eq_left hacc]
          exact ih acc hacc
      | some inner =>
          exact ih _ (le_trans hacc (le_max_left _ _))

/-- The stored annualized value agrees pointwise with the spec formula. -/
theorem performanceAnnualized_eq_spec (c : PortfolioCore) :
    c.performanceAnnualized = specAnnualize c.performance90Day c.actualDaysElapsed := by
  rw [PortfolioCore.performanceAnnualized, specAnnualize]
  by_cases h1 : c.performance90Day = 0
  · simp [h1]
  · by_cases h2 : 0 < c.actualDaysElapsed
    · rw [if_pos ⟨h1, h2⟩, if_neg]
      push_neg
      exact ⟨h1, by omega⟩
    · rw [if_neg (fun hc => h2 hc.2), if_pos (Or.inr (by omega))]

end Lemmas

/-- Claim C9: `calculate_hybrid_projection` returns an error exactly when
today minus the score date is at least 90 days, and never returns that error
for a younger score. -/
theorem claim_C9 (records : List StockRecord) (scoreDate currentDate : ℤ)
    (market : MarketMap) (divFs : DivFs) :
    (∃ msg, calculateHybridProjection records scoreDate currentDate market divFs =
        Except.error msg) ↔ 90 ≤ currentDate - scoreDate := by
  rw [calculateHybridProjection]
  by_cases h : 90 ≤ currentDate - scoreDate <;> simp [h]

/-- Claim C7 (the code slip): for the valid ISO date `2025-03-05`, the
single-date driver derives the score path `docs/scores/2025/March/05.tsv`,
keeping the zero-padded day verbatim, while the repository layout (as derived
by `find_tsv_file_for_date` from the same calendar date) is
`docs/scores/2025/March/5.tsv` with no leading zero. -/
theorem claim_C7 :
    deriveScoreFilePath "docs" "2025-03-05" =
        Except.ok "docs/scores/2025/March/05.tsv" ∧
    findTsvFileForDate "docs" 2025 3 5 = "docs/scores/2025/March/5.tsv" ∧
    "docs/scores/2025/March/05.tsv" ≠ "docs/scores/2025/March/5.tsv" := by
  refine ⟨by rfl, by decide, by decide⟩

/-- Claim C6 counterexample: an empty `Target` cell is a deserialization
error, not an absent value. -/
theorem claim_C6_counterexample :
    deserializeCurrency "" = Except.error "Failed to parse currency value  as float" := rfl

/-- Claim C6 as amended: all three currency columns tolerate the five
currency forms, yielding the signed numeric value with dollar signs and
thousands commas stripped; a missing or empty cell of the two optional
intrinsic-value columns is an absent value, while an empty `Target` cell is
a parse error (never a zero). -/
theorem claim_C6 :
    deserializeCurrency "22.63" = Except.ok (2263 / 100) ∧
    deserializeCurrency "$21.99" = Except.ok (2199 / 100) ∧
    deserializeCurrency "$3,208.46" = Except.ok (320846 / 100) ∧
    deserializeCurrency "-$555.69" = Except.ok (-(55569 / 100)) ∧
    deserializeCurrency "-$45,749.70" = Except.ok (-(4574970 / 100)) ∧
    deserializeOptionalCurrency (some "22.63") = Except.ok (some (2263 / 100)) ∧
    deserializeOptionalCurrency (some "$21.99") = Except.ok (some (2199 / 100)) ∧
    deserializeOptionalCurrency (some "$3,208.46") = Except.ok (some (320846 / 100)) ∧
    deserializeOptionalCurrency (some "-$555.69") = Except.ok (some (-(55569 / 100))) ∧
    deserializeOptionalCurrency (some "-$45,749.70") = Except.ok (some (-(4574970 / 100))) ∧
    deserializeOptionalCurrency (some "") = Except.ok none ∧
    deserializeOptionalCurrency none = Except.ok none ∧
    (∃ msg, deserializeCurrency "" = Except.error msg) := by
  refine ⟨?_, ?_, ?_, ?_, ?_, ?_, ?_, ?_, ?_, ?_, by rfl, by rfl, ⟨_, rfl⟩⟩ <;>
    norm_num +decide [deserializeCurrency, deserializeOptionalCurrency, trimString,
      parseF64Q, parseUnsignedQ, splitDot, digitsVal, digitVal]

theorem getD_zero_pos_iff (o : Option ℚ) : 0 < o.getD 0 ↔ ∃ q, o = some q ∧ 0 < q := by
  cases o <;> simp

theorem lookupClose_insertClose (m : MarketMapS) (t d : String) (q : ℚ) (t₀ d₀ : String) :
    lookupClose (insertClose m t d q) t₀ d₀ =
      if t₀ = t ∧ d₀ = d then some q else lookupClose m t₀ d₀ := by
  rw [insertClose]
  cases h : alookup m t with
  | none =>
      rw [lookupClose, alookup_ainsert]
      by_cases ht : t₀ = t
      · subst ht
        rw [if_pos rfl]
        by_cases hd : d₀ = d
        · simp [alookup, hd]
        · simp [alookup, hd, lookupClose, h]
      · simp [ht, lookupClose]
  | some inner =>
      rw [lookupClose, alookup_ainsert]
      by_cases ht : t₀ = t
      · subst ht
        rw [if_pos rfl]
        by_cases hd : d₀ = d
        · simp [alookup_ainsert, hd]
        · simp [alookup_ainsert, hd, lookupClose, h]
      · simp [ht, lookupClose]

theorem lookupClose_csvRowStep (m : MarketMapS) (r : CsvRow) (t d : String) :
    ((lookupClose (csvRowStep m r) t d).isSome ↔
        (lookupClose m t d).isSome ∨
          (6 ≤ r.length ∧ r.getD 1 "" = t ∧ r.getD 0 "" = d ∧
            ∃ q, parseF64Q (r.getD 5 "") = some q ∧ 0 < q)) ∧
    (∀ hp : ∀ p, lookupClose m t d = some p → 0 < p,
      ∀ p, lookupClose (csvRowStep m r) t d = some p → 0 < p) := by
  rw [csvRowStep]
  by_cases hlen : 6 ≤ r.length
  · rw [if_pos hlen]
    by_cases hq : 0 < (parseF64Q (r.getD 5 "")).getD 0
    · simp only [if_pos hq, lookupClose_insertClose]
      constructor
      · by_cases hk : t = r.getD 1 "" ∧ d = r.getD 0 ""
        · rw [if_pos hk]
          simp only [Option.isSome_some, true_iff, iff_true]
          right
          exact ⟨hlen, hk.1.symm, hk.2.symm, (getD_zero_pos_iff _).mp hq⟩
        · rw [if_neg hk]
          constructor
          · intro h; exact Or.inl h
          · rintro (h | ⟨_, h1, h2, _⟩)
            · exact h
            · exact absurd ⟨h1.symm, h2.symm⟩ hk
      · intro hp p
        by_cases hk : t = r.getD 1 "" ∧ d = r.getD 0 ""
        · rw [if_pos hk]
          intro h
          injection h with h1
          rw [← h1]
          exact hq
        · rw [if_neg hk]
          exact hp p
    · rw [if_neg hq]
      refine ⟨?_, fun hp => hp⟩
      constructor
      · intro h; exact Or.inl h
      · rintro (h | ⟨_, _, _, hex⟩)
        · exact h
        · exact absurd ((getD_zero_pos_iff _).mpr hex) hq
  · rw [if_neg hlen]
    refine ⟨?_, fun hp => hp⟩
    constructor
    · intro h; exact Or.inl h
    · rintro (h | ⟨h6, _⟩)
      · exact h
      · exact absurd h6 hlen

theorem readCsv_fold_isSome (t d : String) :
    ∀ (rows : List CsvRow) (m : MarketMapS),
      (lookupClose (rows.foldl csvRowStep m) t d).isSome ↔
        (lookupClose m t d).isSome ∨
          ∃ r ∈ rows, 6 ≤ r.length ∧ r.getD 1 "" = t ∧ r.getD 0 "" = d ∧
            ∃ q, parseF64Q (r.getD 5 "") = some q ∧ 0 < q := by
  intro rows
  induction rows with
  | nil => intro m; simp
  | cons r rest ih =>
      intro m
      rw [List.foldl_cons, ih, (lookupClose_csvRowStep m r t d).1]
      constructor
      · rintro ((h | h) | h)
        · exact Or.inl h
        · exact Or.inr ⟨r, List.mem_cons_self _ _, h⟩
        · rcases h with ⟨r₁, hr₁, hg⟩
          exact Or.inr ⟨r₁, List.mem_cons_of_mem _ hr₁, hg⟩
      · rintro (h | h)
        · exact Or.inl (Or.inl h)
        · rcases h with ⟨r₁, hr₁, hg⟩
          rcases List.mem_cons.mp hr₁ with hx | hx
          · subst hx; exact Or.inl (Or.inr hg)
          · exact Or.inr ⟨r₁, hx, hg⟩

theorem readCsv_fold_pos (t d : String) :
    ∀ (rows : List CsvRow) (m : MarketMapS),
      (∀ p, lookupClose m t d = some p → 0 < p) →
      ∀ p, lookupClose (rows.foldl csvRowStep m) t d = some p → 0 < p := by
  intro rows
  induction rows with
  | nil => intro m hp; exact hp
  | cons r rest ih =>
      intro m hp
      rw [List.foldl_cons]
      exact ih _ ((lookupClose_csvRowStep m r t d).2 hp)

/-- Claim C5: re-indexing the snapshot CSV keeps a (ticker, date) close entry
exactly when some row with at least the six expected cells carries it in
columns 1 and 0 and its column-5 close parses as a positive number; every
stored close is positive (and, as a rational, finite). -/
theorem claim_C5 (rows : List CsvRow) (t d : String) :
    ((lookupClose (readMarketDataFromCsv rows) t d).isSome ↔
      ∃ r ∈ rows, 6 ≤ r.length ∧ r.getD 1 "" = t ∧ r.getD 0 "" = d ∧
        ∃ q, parseF64Q (r.getD 5 "") = some q ∧ 0 < q) ∧
    (∀ p, lookupClose (readMarketDataFromCsv rows) t d = some p → 0 < p) := by
  constructor
  · rw [readMarketDataFromCsv, readCsv_fold_isSome]
    simp [lookupClose, alookup]
  · rw [readMarketDataFromCsv]
    apply readCsv_fold_pos
    intro p h
    simp [lookupClose, alookup] at h

/-- Concrete CSV rows for the C5 witness. -/
def rowsC5 : List CsvRow :=
  [["2025-01-01", "NYSE:ABC", "10", "8", "9", "9", "1.0"],
   ["2025-01-02", "NYSE:ABC", "10", "8", "9", "-1", "1.0"]]

theorem claim_C5_witness :
    lookupClose (readMarketDataFromCsv rowsC5) "NYSE:ABC" "2025-01-01" = some 9 ∧
    (0 : ℚ) < 9 := by
  have h : lookupClose (readMarketDataFromCsv rowsC5) "NYSE:ABC" "2025-01-01" = some 9 := by
    norm_num +decide [rowsC5, readMarketDataFromCsv, csvRowStep, insertClose, ainsert,
      alookup, lookupClose, parseF64Q, parseUnsignedQ, splitDot, digitsVal, digitVal]
  exact ⟨h, (claim_C5 rowsC5 "NYSE:ABC" "2025-01-01").2 9 h⟩

theorem specBuyPrice_eq_of_measured {inner : List (ℤ × ℚ)} {D : ℤ} {b : ℚ}
    (hb : measuredBuyPrice inner D = some b) : specBuyPrice inner D = some b := by
  cases hD : alookup inner D with
  | some p =>
      simp only [measuredBuyPrice, hD] at hb
      simp only [specBuyPrice, hD]
      exact hb
  | none =>
      have hne : ∀ dq ∈ inner, dq.1 ≠ D := by
        intro dq hdq
        exact alookup_eq_none_iff.mp hD dq hdq
      have hcong := nextScan_eq_specEarliest inner hne none
      cases hscan : nextTradingScan inner D with
      | none =>
          simp only [measuredBuyPrice, hD, hscan] at hb
          exact Option.noConfusion hb
      | some dq =>
          simp only [measuredBuyPrice, hD, hscan] at hb
          by_cases hq : 0 < dq.2
          · rw [if_pos hq] at hb
            simp only [specBuyPrice, hD]
            rw [nextTradingScan] at hscan
            rw [hscan] at hcong
            rw [← hcong]
            simpa using hb
          · rw [if_neg hq] at hb
            exact Option.noConfusion hb

theorem measuredBuyPrice_eq_none_of_spec {inner : List (ℤ × ℚ)} {D : ℤ}
    (hs : specBuyPrice inner D = none) : measuredBuyPrice inner D = none := by
  cases hD : alookup inner D with
  | some p =>
      simp only [specBuyPrice, hD] at hs
      exact Option.noConfusion hs
  | none =>
      simp only [specBuyPrice, hD] at hs
      have hne : ∀ dq ∈ inner, dq.1 ≠ D := by
        intro dq hdq
        exact alookup_eq_none_iff.mp hD dq hdq
      have hcong := nextScan_eq_specEarliest inner hne none
      cases hscan : nextTradingScan inner D with
      | none => simp only [measuredBuyPrice, hD, hscan]
      | some dq =>
          exfalso
          rw [nextTradingScan] at hscan
          rw [hscan] at hcong
          rw [← hcong] at hs
          simp at hs

/-- The kept performances of the measured portfolio are exactly the
per-record step results, in record order. -/
theorem calculatePortfolio_individual (records : List StockRecord) (scoreDate : ℤ)
    (market : MarketMap) (divFs : DivFs) :
    (calculatePortfolioPerformance records scoreDate market divFs).individualPerformances =
      records.filterMap (fun x => (measuredStep market divFs scoreDate x).1) := by
  simp only [calculatePortfolioPerformance]
  rw [foldl_pair_fst (fun x => measuredStep market divFs scoreDate x) records [] scoreDate]
  simp

/-- Claim C4: in measured mode the buy price is the close at the score date
when present, else the close at the earliest date strictly after it
(`specBuyPrice`, written from the spec's buy-price rule); a stock with
neither contributes no `StockPerformance`, and the portfolio keeps exactly
the per-record step results. -/
theorem claim_C4 (market : MarketMap) (divFs : DivFs) (scoreDate : ℤ) (r : StockRecord) :
    (∀ inner sp, alookup market r.stock = some inner →
        (measuredStep market divFs scoreDate r).1 = some sp →
        specBuyPrice inner scoreDate = some sp.buyPrice) ∧
    (∀ inner, alookup market r.stock = some inner →
        specBuyPrice inner scoreDate = none →
        (measuredStep market divFs scoreDate r).1 = none) ∧
    (alookup market r.stock = none → (measuredStep market divFs scoreDate r).1 = none) ∧
    (∀ records,
        (calculatePortfolioPerformance records scoreDate market divFs).individualPerformances =
          records.filterMap (fun x => (measuredStep market divFs scoreDate x).1)) := by
  refine ⟨?_, ?_, ?_, fun records => calculatePortfolio_individual records scoreDate market divFs⟩
  · intro inner sp hm hstep
    simp only [measuredStep, hm] at hstep
    cases hb : measuredBuyPrice inner scoreDate with
    | none =>
        simp only [hb] at hstep
        exact Option.noConfusion hstep
    | some b =>
        simp only [hb] at hstep
        rw [specBuyPrice_eq_of_measured hb]
        by_cases hkeep : 0 < b ∧ 0 < (measuredCurrent inner scoreDate).1
        · rw [if_pos hkeep] at hstep
          simp only at hstep
          injection hstep with h1
          rw [← h1]
        · rw [if_neg hkeep] at hstep
          simp at hstep
  · intro inner hm hs
    simp only [measuredStep, hm, measuredBuyPrice_eq_none_of_spec hs]
  · intro hm
    simp [measuredStep, hm]

/-- Sample record shared by several witnesses. -/
def sampleRecord : StockRecord :=
  { stock := "NYSE:SEM"
    score := 1
    target := 20
    exDividendDate := none
    dividendPerShare := none
    notes := none
    intrinsicValuePerShareBasic := none
    intrinsicValuePerShareAdjusted := none }

/-- Price map for the C4 witness: no close at the score date 0, so the buy
price falls back to the earliest later close. -/
def marketC4 : MarketMap := [("NYSE:SEM", [(3, 15), (90, 15)])]

theorem claim_C4_witness :
    specBuyPrice [(3, 15), (90, 15)] 0 = some 15 := by
  have h := (claim_C4 marketC4 [] 0 sampleRecord).1 [(3, 15), (90, 15)]
    { ticker := "NYSE:SEM"
      buyPrice := 15
      targetPrice := 20
      currentPrice := 15
      gainLossPercent := 0
      dividendsTotal := 0
      totalReturnPercent := 0 }
    (by decide)
  apply h
  norm_num +decide [measuredStep, measuredBuyPrice, measuredCurrent, nextTradingScan,
    nextStep, marketC4, sampleRecord, alookup, latestScan, latestStep, exceptGetD,
    calculateDividendsForPeriod, readDividendData, getDividendDataPath, firstLetterShelf,
    DIVIDEND_DATA_BASE_PATH]

/-- The kept performances of the projected portfolio are exactly the
per-record step results, in record order. -/
theorem hybrid_individual {records : List StockRecord} {scoreDate currentDate : ℤ}
    {market : MarketMap} {divFs : DivFs} {P : PortfolioCore}
    (h : calculateHybridProjection records scoreDate currentDate market divFs = Except.ok P) :
    P.individualPerformances =
      records.filterMap (fun x => (hybridStep market divFs scoreDate currentDate x).1) := by
  rw [calculateHybridProjection] at h
  by_cases hd : 90 ≤ currentDate - scoreDate
  · rw [if_pos hd] at h
    exact Except.noConfusion h
  · rw [if_neg hd] at h
    injection h with h1
    rw [← h1]
    rw [foldl_pair_fst (fun x => hybridStep market divFs scoreDate currentDate x)
      records [] scoreDate]
    simp

/-- Claim C3: in projected mode, a kept stock with a positive number `m` of
elapsed market days stores as its price gain the raw 90-day extrapolation
`gain/m × 90`, damped by 0.3 / 0.5 / 0.7 according to `m < 30`,
`30 ≤ m < 60`, `m ≥ 60`, clamped to `[-100, 200]`; its total return is that
damped value plus the dividend-yield term; and the portfolio stores exactly
the per-record step results. -/
theorem claim_C3 (market : MarketMap) (divFs : DivFs) (scoreDate currentDate : ℤ)
    (r : StockRecord) (inner : List (ℤ × ℚ)) (dstar : ℤ) (qstar b : ℚ)
    (hin : alookup market r.stock = some inner)
    (hlr : latestScan inner scoreDate currentDate = (dstar, qstar))
    (hq : 0 < qstar)
    (hb : hybridBuyPrice inner scoreDate = b)
    (hbpos : 0 < b)
    (hm : 0 < dstar - scoreDate) :
    hybridStep market divFs scoreDate currentDate r =
      (some
        { ticker := r.stock
          buyPrice := b
          targetPrice := r.target
          currentPrice := qstar
          gainLossPercent :=
            clampQ ((qstar - b) / b * 100 / ((dstar - scoreDate : ℤ) : ℚ) * 90 *
              (if dstar - scoreDate < 30 then 3 / 10
               else if dstar - scoreDate < 60 then 1 / 2 else 7 / 10)) (-100) 200
          dividendsTotal :=
            exceptGetD (calculateDividendsForPeriod divFs r.stock scoreDate (scoreDate + 90)) 0
          totalReturnPercent :=
            clampQ ((qstar - b) / b * 100 / ((dstar - scoreDate : ℤ) : ℚ) * 90 *
              (if dstar - scoreDate < 30 then 3 / 10
               else if dstar - scoreDate < 60 then 1 / 2 else 7 / 10)) (-100) 200 +
              exceptGetD (calculateDividendsForPeriod divFs r.stock scoreDate (scoreDate + 90))
                0 / b * 100 },
        dstar) ∧
    (∀ records P,
        calculateHybridProjection records scoreDate currentDate market divFs = Except.ok P →
        P.individualPerformances =
          records.filterMap (fun x => (hybridStep market divFs scoreDate currentDate x).1)) := by
  refine ⟨?_, fun records P h => hybrid_individual h⟩
  simp only [hybridStep, hin, hlr]
  rw [hb]
  rw [if_pos hq, if_pos hbpos, if_pos hm]

/-- Claim C10: in projected mode a stock whose only in-window price sits on
the score date itself (zero elapsed market days) is kept, with a zero daily
rate instead of a division by zero, a stored damped gain of exactly 0, and a
total return equal to the dividend-yield term alone. -/
theorem claim_C10 (market : MarketMap) (divFs : DivFs) (scoreDate currentDate : ℤ)
    (r : StockRecord) (inner : List (ℤ × ℚ)) (p : ℚ)
    (hin : alookup market r.stock = some inner)
    (hD : alookup inner scoreDate = some p)
    (hp : 0 < p)
    (honly : ∀ dq ∈ inner, scoreDate ≤ dq.1 → dq.1 ≤ currentDate → dq = (scoreDate, p))
    (htoday : scoreDate ≤ currentDate) :
    hybridStep market divFs scoreDate currentDate r =
      (some
        { ticker := r.stock
          buyPrice := p
          targetPrice := r.target
          currentPrice := p
          gainLossPercent := 0
          dividendsTotal :=
            exceptGetD (calculateDividendsForPeriod divFs r.stock scoreDate (scoreDate + 90)) 0
          totalReturnPercent :=
            exceptGetD (calculateDividendsForPeriod divFs r.stock scoreDate (scoreDate + 90))
              0 / p * 100 },
        scoreDate) := by
  have hscan : latestScan inner scoreDate currentDate = (scoreDate, p) :=
    latestScan_only_scoreDate (alookup_mem hD) honly htoday
  have hbuy : hybridBuyPrice inner scoreDate = p := by
    simp only [hybridBuyPrice, hD]
  simp only [hybridStep, hin, hscan, hbuy]
  rw [if_pos hp, if_pos hp]
  rw [sub_self, sub_self]
  rw [if_neg (lt_irrefl (0 : ℤ))]
  norm_num [clampQ]

/-- Price map for the C3 witness (spec scenario 4: buy 100, close 106 after
15 market days). -/
def marketC3 : MarketMap := [("NYSE:SEM", [(0, 100), (15, 106)])]

theorem claim_C3_witness :
    (hybridStep marketC3 [] 0 20 sampleRecord).2 = 15 ∧
    ((hybridStep marketC3 [] 0 20 sampleRecord).1).isSome = true := by
  have h := (claim_C3 marketC3 [] 0 20 sampleRecord [(0, 100), (15, 106)] 15 106 100
    (by decide) (by decide) (by decide) (by decide) (by decide) (by decide)).1
  rw [h]
  exact ⟨rfl, rfl⟩

/-- Price map for the C10 witness: the only price is on the score date. -/
def marketC10 : MarketMap := [("NYSE:SEM", [(5, 7)])]

theorem claim_C10_witness :
    (hybridStep marketC10 [] 5 12 sampleRecord).2 = 5 ∧
    ((hybridStep marketC10 [] 5 12 sampleRecord).1).isSome = true := by
  have h := claim_C10 marketC10 [] 5 12 sampleRecord [(5, 7)] 7
    (by decide) (by decide) (by decide) (by decide) (by decide)
  rw [h]
  exact ⟨rfl, rfl⟩

/-- Price map for the C1 failing input (spec scenario 1 prices). -/
def marketC1 : MarketMap := [("NYSE:SEM", [(0, 15), (90, 33 / 2)])]

/-- Dividend corpus entry for SEM with one in-window dividend of 0.5. -/
def divDataC1 : DividendData :=
  { symbol := "SEM", data := [{ exDividendDate := 10, amount := 1 / 2 }] }

/-- Dividend corpus for the C1 failing input: the file sits at the shelved
path of the bare symbol, `data/S/SEM.json`, as the corpus layout prescribes. -/
def divFsC1 : DivFs := [("../GRQ-dividends/data/S/SEM.json", divDataC1)]

/-- Claim C1 (the code slip, evaluated at the failing input): with the SEM
dividend at its corpus path `data/S/SEM.json`, the engine keeps the stock
`NYSE:SEM` but stores `dividends_total = 0`, because
`calculate_dividends_for_period` looks the corpus up under the untransformed
full ticker (path `data/N/NYSE:SEM.json`); the spec-modelled lookup through
the symbol-from-ticker transform finds the dividend and yields 0.5. -/
theorem claim_C1 :
    (calculatePortfolioPerformance [sampleRecord] 0 marketC1 divFsC1).individualPerformances.map
        StockPerformance.dividendsTotal = [0] ∧
    specDividendsForPeriod divFsC1 "NYSE:SEM" 0 90 = 1 / 2 ∧
    getDividendDataPath "NYSE:SEM" = "../GRQ-dividends/data/N/NYSE:SEM.json" ∧
    getDividendDataPath (extractSymbolFromTicker "NYSE:SEM") =
      "../GRQ-dividends/data/S/SEM.json" := by
  refine ⟨?_, ?_, by decide, by decide⟩
  · norm_num +decide [calculatePortfolioPerformance, measuredStep, measuredBuyPrice,
      measuredCurrent, nextTradingScan, nextStep, latestScan, latestStep, alookup,
      marketC1, sampleRecord, divFsC1, divDataC1, calculateDividendsForPeriod,
      readDividendData, getDividendDataPath, firstLetterShelf, DIVIDEND_DATA_BASE_PATH,
      exceptGetD]
  · norm_num +decide [specDividendsForPeriod, extractSymbolFromTicker, splitOnChar,
      readDividendData, getDividendDataPath, firstLetterShelf, DIVIDEND_DATA_BASE_PATH,
      alookup, divFsC1, divDataC1, filterDividendDataByDateRange]

/-- Claim C2: in both modes the stored annualized performance equals the spec
formula `((1 + p/100) ^ (365.25/effective_days) - 1) × 100` (0 when `p = 0`
or `effective_days ≤ 0`), with
`effective_days = min(90, latest_included_date - D)` and
`latest_included_date` the maximum of the chosen current-price dates across
the kept stocks, never below `D` (`specLatestIncludedDate`).  The positivity
hypothesis on the price map holds for every map the engine actually
receives, since `read_market_data_from_csv` stores only positive closes. -/
theorem claim_C2 (records : List StockRecord) (scoreDate currentDate : ℤ)
    (market : MarketMap) (divFs : DivFs)
    (hpos : ∀ x ∈ market, ∀ dq ∈ x.2, 0 < dq.2) :
    ((calculatePortfolioPerformance records scoreDate market divFs).performanceAnnualized =
      specAnnualize
        (calculatePortfolioPerformance records scoreDate market divFs).performance90Day
        (min 90 (specLatestIncludedDate records market scoreDate (scoreDate + 90) -
          scoreDate))) ∧
    (∀ P, calculateHybridProjection records scoreDate currentDate market divFs =
        Except.ok P →
      P.performanceAnnualized =
        specAnnualize P.performance90Day
          (min 90 (specLatestIncludedDate records market scoreDate currentDate -
            scoreDate))) := by
  constructor
  · have hdays : (calculatePortfolioPerformance records scoreDate market divFs).actualDaysElapsed =
        min 90 (specLatestIncludedDate records market scoreDate (scoreDate + 90) - scoreDate) := by
      simp only [calculatePortfolioPerformance]
      rw [foldl_pair_snd (fun x => measuredStep market divFs scoreDate x) records [] scoreDate]
      rw [foldl_latest_eq_specLatest (fun x => (measuredStep market divFs scoreDate x).2)
        (fun x => measuredStep_snd hpos) records scoreDate le_rfl]
      rw [min_comm]
      rfl
    rw [performanceAnnualized_eq_spec, hdays]
  · intro P hP
    have hdays : P.actualDaysElapsed =
        min 90 (specLatestIncludedDate records market scoreDate currentDate - scoreDate) := by
      rw [calculateHybridProjection] at hP
      by_cases hd : 90 ≤ currentDate - scoreDate
      · rw [if_pos hd] at hP
        exact Except.noConfusion hP
      · rw [if_neg hd] at hP
        injection hP with h1
        rw [← h1]
        simp only []
        rw [foldl_pair_snd (fun x => hybridStep market divFs scoreDate currentDate x)
          records [] scoreDate]
        rw [foldl_latest_eq_specLatest
          (fun x => (hybridStep market divFs scoreDate currentDate x).2)
          (fun x => hybridStep_snd) records scoreDate le_rfl]
        rw [min_comm]
        rfl
    rw [performanceAnnualized_eq_spec, hdays]

theorem claim_C2_witness :
    (∀ x ∈ marketC3, ∀ dq ∈ x.2, 0 < dq.2) ∧
    ((calculatePortfolioPerformance [sampleRecord] 0 marketC3 []).performanceAnnualized =
      specAnnualize
        (calculatePortfolioPerformance [sampleRecord] 0 marketC3 []).performance90Day
        (min 90 (specLatestIncludedDate [sampleRecord] marketC3 0 (0 + 90) - 0))) :=
  ⟨by decide, (claim_C2 [sampleRecord] 0 20 marketC3 [] (by decide)).1⟩

theorem updateScoreEntry_shape {env : UpdateEnv} {docsPath : String} {e e₁ : ScoreEntry}
    (h : updateScoreEntry env docsPath e = Except.ok e₁) :
    e₁.year = e.year ∧ e₁.month = e.month ∧ e₁.day = e.day ∧
    e₁.file = e.file ∧ e₁.date = e.date ∧
    (e₁ = e ∨ ∃ p90 pann ts, e₁ = patchEntry e p90 pann ts) := by
  rw [updateScoreEntry] at h
  cases hd : env.parseDate e.date with
  | none =>
      simp only [hd] at h
      exact Except.noConfusion h
  | some d =>
      simp only [hd] at h
      by_cases hage : 90 ≤ env.today - d
      · rw [if_pos hage] at h
        cases hc : calculatePortfolioPerformanceFromFiles env
            (docsPath ++ "/scores/" ++ e.file) d with
        | ok p =>
            simp only [hc] at h
            injection h with h1
            subst h1
            exact ⟨rfl, rfl, rfl, rfl, rfl,
              Or.inr ⟨p.performance90Day, p.performanceAnnualized, p.totalStocks, rfl⟩⟩
        | error msg =>
            simp only [hc] at h
            injection h with h1
            subst h1
            exact ⟨rfl, rfl, rfl, rfl, rfl, Or.inl rfl⟩
      · rw [if_neg hage] at h
        cases hs : env.scoreFile (docsPath ++ "/scores/" ++ e.file) with
        | error msg =>
            simp only [hs] at h
            injection h with h1
            subst h1
            exact ⟨rfl, rfl, rfl, rfl, rfl, Or.inl rfl⟩
        | ok records =>
            simp only [hs] at h
            cases hm : env.marketCsv (deriveCsvOutputPath (docsPath ++ "/scores/" ++ e.file)) with
            | error msg =>
                simp only [hm] at h
                injection h with h1
                subst h1
                exact ⟨rfl, rfl, rfl, rfl, rfl, Or.inl rfl⟩
            | ok market =>
                simp only [hm] at h
                cases hh : calculateHybridProjection records d env.today market env.divFs with
                | ok p =>
                    simp only [hh] at h
                    injection h with h1
                    subst h1
                    exact ⟨rfl, rfl, rfl, rfl, rfl,
                      Or.inr ⟨p.performance90Day, p.performanceAnnualized, p.totalStocks, rfl⟩⟩
                | error msg =>
                    simp only [hh] at h
                    injection h with h1
                    subst h1
                    exact ⟨rfl, rfl, rfl, rfl, rfl, Or.inl rfl⟩

/-- Claim C8: a successful index update yields entries of the same number and
order; every output entry is its input entry's per-entry update result, keeps
year, month, day, file and date, and differs from the input at most in the
three patched metric fields (entries whose computation failed are returned
unchanged by `updateScoreEntry`). -/
theorem claim_C8 (env : UpdateEnv) (docsPath : String) :
    ∀ (scores out : List ScoreEntry),
      updateIndexWithPerformance env docsPath scores = Except.ok out →
      out.length = scores.length ∧
      ∀ (i : ℕ) (e₀ : ScoreEntry), scores[i]? = some e₀ →
        ∃ e₁, out[i]? = some e₁ ∧
          updateScoreEntry env docsPath e₀ = Except.ok e₁ ∧
          e₁.year = e₀.year ∧ e₁.month = e₀.month ∧ e₁.day = e₀.day ∧
          e₁.file = e₀.file ∧ e₁.date = e₀.date ∧
          (e₁ = e₀ ∨ ∃ p90 pann ts, e₁ = patchEntry e₀ p90 pann ts) := by
  intro scores
  induction scores with
  | nil =>
      intro out h
      rw [updateIndexWithPerformance] at h
      injection h with h1
      subst h1
      refine ⟨rfl, ?_⟩
      intro i e₀ h0
      simp at h0
  | cons e rest ih =>
      intro out h
      rw [updateIndexWithPerformance] at h
      cases h₁ : updateScoreEntry env docsPath e with
      | error msg =>
          simp only [h₁] at h
          exact Except.noConfusion h
      | ok e₁ =>
          simp only [h₁] at h
          cases h₂ : updateIndexWithPerformance env docsPath rest with
          | error msg =>
              simp only [h₂] at h
              exact Except.noConfusion h
          | ok rest₁ =>
              simp only [h₂] at h
              injection h with h3
              subst h3
              obtain ⟨hlen, hidx⟩ := ih rest₁ h₂
              refine ⟨by simp [hlen], ?_⟩
              intro i e₀ h0
              cases i with
              | zero =>
                  simp only [List.getElem?_cons_zero] at h0
                  injection h0 with h4
                  subst h4
                  obtain ⟨hy, hmo, hdd, hf, hdt, hor⟩ := updateScoreEntry_shape h₁
                  exact ⟨e₁, by simp, h₁, hy, hmo, hdd, hf, hdt, hor⟩
              | succ j =>
                  simp only [List.getElem?_cons_succ] at h0 ⊢
                  exact hidx j e₀ h0

/-- Environment for the C8 witness in which every file read fails, so every
entry is left untouched. -/
def envW : UpdateEnv :=
  { scoreFile := fun _ => Except.error "missing"
    marketCsv := fun _ => Except.error "missing"
    divFs := []
    today := 100
    parseDate := fun _ => some 0 }

/-- Index entry for the C8 witness. -/
def entryW : ScoreEntry :=
  { year := "2024", month := "November", day := "15"
    file := "2024/November/15.tsv", date := "2024-11-15"
    performance90Day := none, performanceAnnualized := none, totalStocks := none }

theorem claim_C9_witness :
    ∃ msg, calculateHybridProjection [] 0 100 [] [] = Except.error msg :=
  (claim_C9 [] 0 100 [] []).mpr (by decide)

theorem claim_C8_witness :
    updateIndexWithPerformance envW "docs" [entryW] = Except.ok [entryW] ∧
    ([entryW] : List ScoreEntry).length = ([entryW] : List ScoreEntry).length ∧
    ∀ (i : ℕ) (e₀ : ScoreEntry), ([entryW] : List ScoreEntry)[i]? = some e₀ →
      ∃ e₁, ([entryW] : List ScoreEntry)[i]? = some e₁ ∧
        updateScoreEntry envW "docs" e₀ = Except.ok e₁ ∧
        e₁.year = e₀.year ∧ e₁.month = e₀.month ∧ e₁.day = e₀.day ∧
        e₁.file = e₀.file ∧ e₁.date = e₀.date ∧
        (e₁ = e₀ ∨ ∃ p90 pann ts, e₁ = patchEntry e₀ p90 pann ts) := by
  have hEq : updateIndexWithPerformance envW "docs" [entryW] = Except.ok [entryW] := by rfl
  exact ⟨hEq, claim_C8 envW "docs" [entryW] [entryW] hEq⟩

/-! Numeric cross-checks of the embedding against the spec's worked
scenarios (section 8): measured baseline (buy 15.00, current 16.50, no
dividends, 90 effective days, 10% return) and the projected young score
(buy 100, close 106 at market day 15, damped projection 10.8%). -/

example :
    (calculatePortfolioPerformance [sampleRecord] 0 marketC1 []).performance90Day = 10 ∧
    (calculatePortfolioPerformance [sampleRecord] 0 marketC1 []).actualDaysElapsed = 90 := by
  constructor <;>
    norm_num +decide [calculatePortfolioPerformance, measuredStep, measuredBuyPrice,
      measuredCurrent, nextTradingScan, nextStep, latestScan, latestStep, alookup,
      marketC1, sampleRecord, calculateDividendsForPeriod, readDividendData,
      getDividendDataPath, firstLetterShelf, DIVIDEND_DATA_BASE_PATH, exceptGetD]

example :
    (calculateHybridProjection [sampleRecord] 0 20 marketC3 []).toOption.map
      PortfolioCore.performance90Day = some (54 / 5) := by
  norm_num +decide [calculateHybridProjection, hybridStep, hybridBuyPrice, nextTradingScan,
    nextStep, latestScan, latestStep, alookup, marketC3, sampleRecord,
    calculateDividendsForPeriod, readDividendData, getDividendDataPath, firstLetterShelf,
    DIVIDEND_DATA_BASE_PATH, exceptGetD, clampQ, Except.toOption]

end GRQ
